import Mathlib

/-!
Shallow embedding of the keephy_translations service core
(src/models/Translation.js, src/models/Glossary.js, src/index.js).

Mongoose documents become Lean structures; the MongoDB collection becomes a
`List` of entries; route handlers and model methods become pure functions on
that list.  Dates are modelled as `Nat` timestamps.  Query projections
(`.select`, `.lean()`) and result sorting are dropped where only membership in
the result matters.
-/

/-- Translation status enum (`Translation.js` schema, `status` field). -/
inductive TStatus
  | draft
  | reviewed
  | published
  | archived
deriving DecidableEq, Repr

/-- One element of the `variables` array of a translation entry. -/
structure TVariable where
  name : String
  type : String
  required : Bool
  description : String
deriving DecidableEq, Repr

/-- The `metadata` subdocument of a translation entry (fields the service
writes; `source`, `confidence`, `tags`, `notes` are never read or written by
the routes and are omitted). -/
structure TMetadata where
  createdBy : String
  reviewedBy : Option String
  reviewedAt : Option Nat
  publishedAt : Option Nat
deriving DecidableEq, Repr

/-- A translation document (`Translation.js` schema). -/
structure TranslationEntry where
  «namespace» : String
  key : String
  locale : String
  value : String
  context : String
  metadata : TMetadata
  «variables» : List TVariable
  status : TStatus
  isActive : Bool
  createdAt : Nat
  updatedAt : Nat
deriving DecidableEq, Repr

/-- Pre-save middleware of the translation schema: refresh `updatedAt`; stamp
`metadata.publishedAt` when status is published and it is not yet set. -/
def preSave (now : Nat) (e : TranslationEntry) : TranslationEntry :=
  let e1 := { e with updatedAt := now }
  if e1.status = .published ∧ e1.metadata.publishedAt = none then
    { e1 with metadata := { e1.metadata with publishedAt := some now } }
  else e1

/-- Instance method `publish()`: sets status to published, unconditionally
re-stamps `metadata.publishedAt`, then saves (running the pre-save hook). -/
def TranslationEntry.publish (now : Nat) (e : TranslationEntry) : TranslationEntry :=
  preSave now
    { e with status := .published,
             metadata := { e.metadata with publishedAt := some now } }

/-- Instance method `archive()`: sets status archived and `isActive` false,
then saves. -/
def TranslationEntry.archive (now : Nat) (e : TranslationEntry) : TranslationEntry :=
  preSave now { e with status := .archived, isActive := false }

/-- The Mongo filter used by `getBundles(namespaces, locales, status)`. -/
def inBundle (namespaces locales : List String) (status : TStatus)
    (e : TranslationEntry) : Prop :=
  e.«namespace» ∈ namespaces ∧ e.locale ∈ locales ∧ e.status = status ∧
    e.isActive = true

instance (namespaces locales : List String) (status : TStatus) :
    DecidablePred (inBundle namespaces locales status) := fun e => by
  unfold inBundle; infer_instance

/-- Static `getBundles`: all documents matching namespace set, locale set,
exact status, and `isActive: true`. -/
def getBundles (db : List TranslationEntry) (namespaces locales : List String)
    (status : TStatus) : List TranslationEntry :=
  db.filter (fun e => decide (inBundle namespaces locales status e))

/-- Identity filter of a translation document: the unique
(namespace, key, locale) triple used by `findOneAndUpdate`. -/
def idMatch (ns key locale : String) (e : TranslationEntry) : Prop :=
  e.«namespace» = ns ∧ e.key = key ∧ e.locale = locale

instance (ns key locale : String) : DecidablePred (idMatch ns key locale) :=
  fun e => by unfold idMatch; infer_instance

/-- The update document of `POST /api/i18n/keys` applied to an existing
document: sets value, context, variables, `metadata.createdBy` and forces
status to draft; `updatedAt` is refreshed by the schema timestamps. -/
def upsertPatch (value context : String) (vars : List TVariable)
    (createdBy : String) (now : Nat) (e : TranslationEntry) : TranslationEntry :=
  { e with value := value, context := context, «variables» := vars,
           status := .draft,
           metadata := { e.metadata with createdBy := createdBy },
           updatedAt := now }

/-- The document inserted by `POST /api/i18n/keys` when no
(namespace, key, locale) document exists: schema defaults fill
`isActive := true` and leave `publishedAt` unset. -/
def newEntry (ns key locale value context : String) (vars : List TVariable)
    (createdBy : String) (now : Nat) : TranslationEntry :=
  { «namespace» := ns, key := key, locale := locale, value := value,
    context := context, «variables» := vars, status := .draft,
    metadata := { createdBy := createdBy, reviewedBy := none,
                  reviewedAt := none, publishedAt := none },
    isActive := true, createdAt := now, updatedAt := now }

/-- Model of findOneAndUpdate with upsert and new options, on a list:
patch the first document matching `p`, or append `fresh`; also return the
resulting document. -/
def upsertGo (p : TranslationEntry → Prop) [DecidablePred p]
    (patch : TranslationEntry → TranslationEntry) (fresh : TranslationEntry) :
    List TranslationEntry → List TranslationEntry × TranslationEntry
  | [] => ([fresh], fresh)
  | e :: es =>
    if p e then (patch e :: es, patch e)
    else
      let r := upsertGo p patch fresh es
      (e :: r.1, r.2)

/-- One iteration of the per-locale loop of `POST /api/i18n/keys`. -/
def upsertEntry (db : List TranslationEntry)
    (ns key locale value context : String) (vars : List TVariable)
    (createdBy : String) (now : Nat) :
    List TranslationEntry × TranslationEntry :=
  upsertGo (idMatch ns key locale)
    (upsertPatch value context vars createdBy now)
    (newEntry ns key locale value context vars createdBy now) db

/-- The Mongo filter of `GET /api/i18n/:namespace/:key`:
namespace, key, locale in the requested list, `isActive: true`.
(The sort by locale done by the route is dropped: only membership matters.) -/
def getEntry (db : List TranslationEntry) (ns key : String)
    (locales : List String) : List TranslationEntry :=
  db.filter (fun e =>
    decide (e.«namespace» = ns ∧ e.key = key ∧ e.locale ∈ locales ∧
      e.isActive = true))

/-- The update document of `PUT /api/i18n/:namespace/:key/:locale`.
Body fields absent from the request (`none`) are stripped by the driver and
leave the stored field unchanged — except `status`, which the route computes
as the given status with fallback draft, and therefore always writes. -/
def updateEntryPatch (value context : Option String)
    (vars : Option (List TVariable)) (status : Option TStatus)
    (updatedBy : String) (now : Nat) (e : TranslationEntry) : TranslationEntry :=
  { e with value := value.getD e.value,
           context := context.getD e.context,
           «variables» := vars.getD e.«variables»,
           status := status.getD .draft,
           metadata := { e.metadata with createdBy := updatedBy },
           updatedAt := now }

/-- Model of findOneAndUpdate without upsert: patch
the first matching document, returning `none` (HTTP 404) when none matches. -/
def updateFirst (p : TranslationEntry → Prop) [DecidablePred p]
    (f : TranslationEntry → TranslationEntry) :
    List TranslationEntry → Option (List TranslationEntry × TranslationEntry)
  | [] => none
  | e :: es =>
    if p e then some (f e :: es, f e)
    else (updateFirst p f es).map (fun r => (e :: r.1, r.2))

/-- Route PUT /api/i18n/:namespace/:key/:locale (updateFields). -/
def updateEntry (db : List TranslationEntry) (ns key locale : String)
    (value context : Option String) (vars : Option (List TVariable))
    (status : Option TStatus) (updatedBy : String) (now : Nat) :
    Option (List TranslationEntry × TranslationEntry) :=
  updateFirst (idMatch ns key locale)
    (updateEntryPatch value context vars status updatedBy now) db

/-- The Mongo filter of `POST /api/i18n/publish`: namespace, key in `keys`,
status in the set of draft and reviewed.  Note: the filter does not mention
`isActive`. -/
def publishMatch (ns : String) (keys : List String)
    (e : TranslationEntry) : Prop :=
  e.«namespace» = ns ∧ e.key ∈ keys ∧
    (e.status = .draft ∨ e.status = .reviewed)

instance (ns : String) (keys : List String) :
    DecidablePred (publishMatch ns keys) := fun e => by
  unfold publishMatch; infer_instance

/-- The update document of `POST /api/i18n/publish`. -/
def publishPatch (now : Nat) (publishedBy : String)
    (e : TranslationEntry) : TranslationEntry :=
  { e with
    status := .published,
    metadata := { e.metadata with
                  publishedAt := some now, createdBy := publishedBy } }

/-- Route POST /api/i18n/publish: an updateMany over the collection, returning the
new collection and `modifiedCount` (every matched document changes status, so
matched = modified). -/
def publishMany (db : List TranslationEntry) (ns : String)
    (keys : List String) (publishedBy : String) (now : Nat) :
    List TranslationEntry × Nat :=
  (db.map (fun e =>
      if publishMatch ns keys e then publishPatch now publishedBy e else e),
   db.countP (fun e => decide (publishMatch ns keys e)))

/-- The Mongo `$match` stage of `getMissingKeys`. -/
def missingMatch (ns : String) (e : TranslationEntry) : Prop :=
  e.«namespace» = ns ∧ e.isActive = true ∧ e.status = .published

instance (ns : String) : DecidablePred (missingMatch ns) := fun e => by
  unfold missingMatch; infer_instance

/-- The distinct keys produced by the `$group` stage of `getMissingKeys`. -/
def missingKeysOf (db : List TranslationEntry) (ns : String) : List String :=
  ((db.filter (fun e => decide (missingMatch ns e))).map
    (fun e => e.key)).dedup

/-- The addToSet locale accumulator of `getMissingKeys`: the set of
locales of matching documents with the given key. -/
def localesOfKey (db : List TranslationEntry) (ns key : String) :
    List String :=
  ((db.filter (fun e =>
      decide (missingMatch ns e ∧ e.key = key))).map
    (fun e => e.locale)).dedup

/-- Static `getMissingKeys(namespace, locales)`: for each key group, the
set difference of the requested locales and the locales of the group; groups
with an empty difference are dropped by the final `$match`. -/
def getMissingKeys (db : List TranslationEntry) (ns : String)
    (locales : List String) : List (String × List String) :=
  (missingKeysOf db ns).filterMap (fun k =>
    let missing := locales.dedup.filter
      (fun l => decide (l ∉ localesOfKey db ns k))
    if missing = [] then none else some (k, missing))

/-- One element of the `translations` array of a glossary term
(`Glossary.js` schema). -/
structure GTranslation where
  locale : String
  value : String
  context : String
  isPreferred : Bool
deriving DecidableEq, Repr

/-- A glossary document (`Glossary.js` schema; metadata fields not read by
the resolution and add operations are omitted). -/
structure GlossaryTerm where
  tenantId : String
  term : String
  translations : List GTranslation
  isActive : Bool
deriving DecidableEq, Repr

/-- Instance method `getTranslation(locale)`: exact locale match, else the
first preferred entry, else the first entry, else the term itself. -/
def GlossaryTerm.getTranslation (g : GlossaryTerm) (locale : String) : String :=
  match g.translations.find? (fun t => decide (t.locale = locale)) with
  | some t => t.value
  | none =>
    match g.translations.find? (fun t => t.isPreferred) with
    | some p => p.value
    | none =>
      match g.translations with
      | t :: _ => t.value
      | [] => g.term

/-- Instance method `addTranslation(locale, value, context, isPreferred)`:
remove any entry of the same locale, append the new one, and when it is
preferred clear `isPreferred` on the entries of every other locale. -/
def GlossaryTerm.addTranslation (g : GlossaryTerm) (locale value : String)
    (context : String := "") (isPreferred : Bool := false) : GlossaryTerm :=
  let ts := g.translations.filter (fun t => decide (t.locale ≠ locale))
  let ts := ts ++ [{ locale := locale, value := value, context := context,
                     isPreferred := isPreferred }]
  let ts := if isPreferred then
      ts.map (fun t =>
        if t.locale ≠ locale then { t with isPreferred := false } else t)
    else ts
  { g with translations := ts }

/-- Invariant: at most one glossary translation entry is preferred. -/
def atMostOnePreferred (ts : List GTranslation) : Prop :=
  (ts.filter (fun t => t.isPreferred)).length ≤ 1

/-- Invariant: at most one glossary translation entry per locale. -/
def uniqueLocales (ts : List GTranslation) : Prop :=
  (ts.map (fun t => t.locale)).Nodup


/-- In a list with per-locale uniqueness, `find?` on an exact locale returns
exactly the member carrying that locale. -/
theorem find?_locale_of_mem (ts : List GTranslation) (t : GTranslation)
    (locale : String) (hmem : t ∈ ts) (hloc : t.locale = locale)
    (huniq : uniqueLocales ts) :
    ts.find? (fun x => decide (x.locale = locale)) = some t := by
  induction ts with
  | nil => cases hmem
  | cons a as ih =>
    have hnd : ¬ a.locale ∈ as.map (fun t => t.locale) ∧ uniqueLocales as := by
      simpa [uniqueLocales, List.nodup_cons] using huniq
    rcases List.mem_cons.mp hmem with h | h
    · subst h
      simp [List.find?_cons_of_pos, hloc]
    · have hne : a.locale ≠ locale := by
        intro heq
        exact hnd.1 (heq ▸ hloc ▸ List.mem_map.mpr ⟨t, h, rfl⟩)
      rw [List.find?_cons_of_neg _ (by simpa using hne)]
      exact ih h hnd.2

/-- In a list with at most one preferred entry, `find?` on `isPreferred`
returns exactly the preferred member. -/
theorem find?_preferred_of_mem (ts : List GTranslation) (p : GTranslation)
    (hmem : p ∈ ts) (hp : p.isPreferred = true)
    (hone : atMostOnePreferred ts) :
    ts.find? (fun t => t.isPreferred) = some p := by
  induction ts with
  | nil => cases hmem
  | cons a as ih =>
    rcases List.mem_cons.mp hmem with h | h
    · subst h
      simp [List.find?_cons_of_pos, hp]
    · by_cases ha : a.isPreferred = true
      · exfalso
        have hfil : p ∈ as.filter (fun t => t.isPreferred) :=
          List.mem_filter.mpr ⟨h, hp⟩
        have : 1 + (as.filter (fun t => t.isPreferred)).length ≤ 1 := by
          simpa [atMostOnePreferred, List.filter_cons, ha,
            Nat.add_comm] using hone
        have h0 : (as.filter (fun t => t.isPreferred)).length = 0 := by omega
        rw [List.length_eq_zero] at h0
        simp [h0] at hfil
      · rw [List.find?_cons_of_neg _ (by simpa using ha)]
        refine ih h ?_
        simpa [atMostOnePreferred, List.filter_cons, ha] using hone

/-- C1: for every glossary term and requested locale, `getTranslation`
resolves in priority order: the entry of the requested locale (even when a
different entry is preferred), else the preferred entry, else the first
stored entry, else the term string itself. -/
theorem c1_getTranslation_fallback (g : GlossaryTerm) (locale : String) :
    (∀ t, t ∈ g.translations → t.locale = locale →
      uniqueLocales g.translations → g.getTranslation locale = t.value)
  ∧ ((∀ t ∈ g.translations, t.locale ≠ locale) →
      ∀ p, p ∈ g.translations → p.isPreferred = true →
        atMostOnePreferred g.translations → g.getTranslation locale = p.value)
  ∧ ((∀ t ∈ g.translations, t.locale ≠ locale) →
      (∀ t ∈ g.translations, t.isPreferred = false) →
      ∀ t0 rest, g.translations = t0 :: rest →
        g.getTranslation locale = t0.value)
  ∧ (g.translations = [] → g.getTranslation locale = g.term) := by
  refine ⟨?_, ?_, ?_, ?_⟩
  · intro t hmem hloc huniq
    unfold GlossaryTerm.getTranslation
    rw [find?_locale_of_mem g.translations t locale hmem hloc huniq]
  · intro hnoloc p hmem hp hone
    have h1 : g.translations.find? (fun x => decide (x.locale = locale)) =
        none := by
      rw [List.find?_eq_none]
      intro x hx
      simpa using hnoloc x hx
    unfold GlossaryTerm.getTranslation
    rw [h1, find?_preferred_of_mem g.translations p hmem hp hone]
  · intro hnoloc hnopref t0 rest htl
    have h1 : g.translations.find? (fun x => decide (x.locale = locale)) =
        none := by
      rw [List.find?_eq_none]
      intro x hx
      simpa using hnoloc x hx
    have h2 : g.translations.find? (fun t => t.isPreferred) = none := by
      rw [List.find?_eq_none]
      intro x hx
      simp [hnopref x hx]
    unfold GlossaryTerm.getTranslation
    rw [h1, h2, htl]
  · intro htl
    unfold GlossaryTerm.getTranslation
    rw [htl]
    rfl

/-- A concrete glossary term used as a worked example. -/
def gC1 : GlossaryTerm :=
  { tenantId := "t1", term := "greeting",
    translations :=
      [{ locale := "fr", value := "A", context := "", isPreferred := false },
       { locale := "es", value := "B", context := "", isPreferred := true }],
    isActive := true }

/-- C1 witness: on the worked example, the exact match beats the preferred
entry and the preferred entry is used when no exact match exists. -/
theorem c1_getTranslation_fallback_witness :
    gC1.getTranslation "fr" = "A" ∧ gC1.getTranslation "de" = "B" := by
  constructor
  · exact (c1_getTranslation_fallback gC1 "fr").1
      { locale := "fr", value := "A", context := "", isPreferred := false }
      (by decide) rfl (by unfold uniqueLocales; decide)
  · exact (c1_getTranslation_fallback gC1 "de").2.1 (by decide)
      { locale := "es", value := "B", context := "", isPreferred := true }
      (by decide) rfl (by unfold atMostOnePreferred; decide)

/-- The requested locale does not occur among the locales kept by
the removal step of addTranslation. -/
theorem locale_not_mem_filtered (ts : List GTranslation) (locale : String) :
    locale ∉ (ts.filter (fun t => decide (t.locale ≠ locale))).map
      (fun t => t.locale) := by
  intro h
  rcases List.mem_map.mp h with ⟨t, ht, hl⟩
  have h2 := (List.mem_filter.mp ht).2
  simp only [decide_eq_true_eq] at h2
  exact h2 hl

/-- Removing a locale then appending one entry of that locale preserves
per-locale uniqueness. -/
theorem uniqueLocales_replace (ts : List GTranslation) (locale : String)
    (n : GTranslation) (hn : n.locale = locale)
    (huniq : uniqueLocales ts) :
    uniqueLocales (ts.filter (fun t => decide (t.locale ≠ locale)) ++ [n]) := by
  unfold uniqueLocales at *
  rw [List.map_append, List.nodup_append]
  refine ⟨?_, by simp, ?_⟩
  · exact huniq.sublist ((ts.filter_sublist).map (fun t => t.locale))
  · intro a ha hb
    simp only [List.map_cons, List.map_nil, List.mem_singleton] at hb
    rw [hb, hn] at ha
    exact locale_not_mem_filtered ts locale ha

/-- C7: `addTranslation` preserves the at-most-one-preferred and
one-entry-per-locale invariants; the entry of the new locale is present with the
given value and flag; and when the call passes `isPreferred = true` the new
entry of the new locale is the unique preferred one. -/
theorem c7_addTranslation_invariants (g : GlossaryTerm)
    (locale value context : String) (isPreferred : Bool)
    (hone : atMostOnePreferred g.translations)
    (huniq : uniqueLocales g.translations) :
    atMostOnePreferred
      (g.addTranslation locale value context isPreferred).translations
  ∧ uniqueLocales
      (g.addTranslation locale value context isPreferred).translations
  ∧ (∃ t ∈ (g.addTranslation locale value context isPreferred).translations,
      t.locale = locale ∧ t.value = value ∧ t.isPreferred = isPreferred)
  ∧ (isPreferred = true →
      ∀ t ∈ (g.addTranslation locale value context isPreferred).translations,
        (t.isPreferred = true ↔ t.locale = locale)) := by
  cases isPreferred with
  | false =>
    simp only [GlossaryTerm.addTranslation, if_neg (by simp : ¬ (false = true))]
    set n : GTranslation :=
      { locale := locale, value := value, context := context,
        isPreferred := false } with hn
    refine ⟨?_, ?_, ?_, by simp⟩
    · unfold atMostOnePreferred
      rw [List.filter_append]
      have h1 : ([n].filter (fun t => t.isPreferred)) = [] := by simp [hn]
      rw [h1, List.append_nil]
      calc ((g.translations.filter (fun t => decide (t.locale ≠ locale))).filter
              (fun t => t.isPreferred)).length
          ≤ (g.translations.filter (fun t => t.isPreferred)).length :=
            ((g.translations.filter_sublist).filter
              (fun t => t.isPreferred)).length_le
        _ ≤ 1 := hone
    · exact uniqueLocales_replace g.translations locale n rfl huniq
    · exact ⟨n, by simp, rfl, rfl, rfl⟩
  | true =>
    set n : GTranslation :=
      { locale := locale, value := value, context := context,
        isPreferred := true } with hn
    set F := g.translations.filter (fun t => decide (t.locale ≠ locale))
      with hF
    set f : GTranslation → GTranslation := fun t =>
      if t.locale ≠ locale then { t with isPreferred := false } else t
      with hf
    have htr : (g.addTranslation locale value context true).translations =
        (F ++ [n]).map f := by
      rw [hF, hn, hf]
      rfl
    have hfn : f n = n := by rw [hf, hn]; simp
    have hfF : ∀ t ∈ F, f t = { t with isPreferred := false } := by
      intro t ht
      have h2 := (List.mem_filter.mp ht).2
      simp only [decide_eq_true_eq] at h2
      simp [hf, h2]
    have hfloc : ∀ t, (f t).locale = t.locale := by
      intro t
      rw [hf]
      by_cases h : t.locale = locale
      · simp [h]
      · simp [h]
    have hmap : (F ++ [n]).map f = F.map f ++ [n] := by
      rw [List.map_append]; simp [hfn]
    refine ⟨?_, ?_, ?_, ?_⟩
    · unfold atMostOnePreferred
      rw [htr, hmap, List.filter_append]
      have h1 : (F.map f).filter (fun t => t.isPreferred) = [] := by
        rw [List.filter_eq_nil_iff]
        intro a ha
        rcases List.mem_map.mp ha with ⟨x, hx, rfl⟩
        rw [hfF x hx]
        simp
      rw [h1]
      simp [hn]
    · unfold uniqueLocales
      rw [htr]
      have h1 : ((F ++ [n]).map f).map (fun t => t.locale) =
          (F ++ [n]).map (fun t => t.locale) := by
        rw [List.map_map]
        exact List.map_congr_left (fun a _ => hfloc a)
      rw [h1, hF]
      exact uniqueLocales_replace g.translations locale n (by rw [hn]) huniq
    · refine ⟨n, ?_, by rw [hn], by rw [hn], by rw [hn]⟩
      rw [htr, hmap]
      exact List.mem_append.mpr (Or.inr (by simp))
    · intro _ t ht
      rw [htr, hmap] at ht
      rcases List.mem_append.mp ht with h | h
      · rcases List.mem_map.mp h with ⟨x, hx, rfl⟩
        have h2 := (List.mem_filter.mp hx).2
        simp only [decide_eq_true_eq] at h2
        rw [hfF x hx]
        simpa using h2
      · rw [List.mem_singleton.mp h, hn]
        simp

/-- A concrete glossary term with no translations yet. -/
def gC7 : GlossaryTerm :=
  { tenantId := "t1", term := "brand", translations := [], isActive := true }

/-- C7 witness: after adding a preferred `en` entry and then a preferred `fr`
entry, only the `fr` entry is preferred. -/
theorem c7_addTranslation_invariants_witness :
    atMostOnePreferred
      ((gC7.addTranslation "en" "Hello" "" true).addTranslation
        "fr" "Bonjour" "" true).translations
  ∧ ∀ t ∈ ((gC7.addTranslation "en" "Hello" "" true).addTranslation
        "fr" "Bonjour" "" true).translations,
      (t.isPreferred = true ↔ t.locale = "fr") := by
  have h := c7_addTranslation_invariants
    (gC7.addTranslation "en" "Hello" "" true) "fr" "Bonjour" "" true
    (by unfold atMostOnePreferred; decide)
    (by unfold uniqueLocales; decide)
  exact ⟨h.1, h.2.2.2 rfl⟩

/-- No inactive document ever appears in a `getBundles` result: the bundle
filter requires `isActive: true`. -/
theorem inactive_not_mem_getBundles (e : TranslationEntry)
    (he : e.isActive = false) (db : List TranslationEntry)
    (namespaces locales : List String) (status : TStatus) :
    e ∉ getBundles db namespaces locales status := by
  intro h
  have h2 := (List.mem_filter.mp h).2
  rw [decide_eq_true_eq] at h2
  rw [h2.2.2.2] at he
  cases he

/-- C8: `archive()` sets status to archived and `isActive` to false, and the
archived document is excluded from every `getBundles` result, whatever status
the caller requests (archived included). -/
theorem c8_archive_excluded (e : TranslationEntry) (now : Nat) :
    (TranslationEntry.archive now e).status = .archived
  ∧ (TranslationEntry.archive now e).isActive = false
  ∧ ∀ (db : List TranslationEntry) (namespaces locales : List String)
      (status : TStatus),
      TranslationEntry.archive now e ∉ getBundles db namespaces locales status := by
  have hst : (TranslationEntry.archive now e).status = .archived := by
    simp [TranslationEntry.archive, preSave]
  have hac : (TranslationEntry.archive now e).isActive = false := by
    simp [TranslationEntry.archive, preSave]
  exact ⟨hst, hac, fun db nss ls st =>
    inactive_not_mem_getBundles _ hac db nss ls st⟩

/-- C5: a second `publish` of the same namespace and key set, immediately
after a first one, matches no document and reports `modifiedCount = 0`:
every document matched by the first call now has status published. -/
theorem c5_publish_idempotent (db : List TranslationEntry) (ns : String)
    (keys : List String) (pb pb2 : String) (now now2 : Nat) :
    (publishMany (publishMany db ns keys pb now).1 ns keys pb2 now2).2 = 0 := by
  simp only [publishMany]
  rw [List.countP_eq_zero]
  intro e' he'
  rcases List.mem_map.mp he' with ⟨e, he, rfl⟩
  simp only [decide_eq_true_eq]
  by_cases h : publishMatch ns keys e
  · rw [if_pos h]
    intro hc
    have h1 := hc.2.2
    rcases h1 with h1 | h1 <;> simp [publishPatch] at h1
  · rw [if_neg h]
    exact h

/-- A draft entry that has been deactivated (`isActive = false`). -/
def eC4 : TranslationEntry :=
  { «namespace» := "ui", key := "k1", locale := "en", value := "v",
    context := "",
    metadata := { createdBy := "sys", reviewedBy := none, reviewedAt := none,
                  publishedAt := none },
    «variables» := [], status := .draft, isActive := false,
    createdAt := 0, updatedAt := 0 }

/-- C4 counterexample: `publish` modifies and counts a matching draft entry
even though it is inactive — the update filter never tests `isActive`, so
inactive entries are not left untouched as the claim states. -/
theorem c4_counterexample :
    eC4.isActive = false
  ∧ (publishMany [eC4] "ui" ["k1"] "bob" 5).2 = 1
  ∧ (publishMany [eC4] "ui" ["k1"] "bob" 5).1 ≠ [eC4]
  ∧ ∀ e ∈ (publishMany [eC4] "ui" ["k1"] "bob" 5).1,
      e.status = .published := by decide

/-- C4 (amended): `publish(namespace, keys, publishedBy)` modifies exactly
the entries of the namespace whose key is in `keys` and whose status is
draft or reviewed — regardless of `isActive` — stamping status, publishedAt
and createdBy on each; all other entries are untouched and the returned
count is the number of matched entries. -/
theorem c4_publish_bulk (db : List TranslationEntry) (ns : String)
    (keys : List String) (pb : String) (now : Nat) :
    ((publishMany db ns keys pb now).1.length = db.length)
  ∧ (∀ e ∈ db, publishMatch ns keys e →
      publishPatch now pb e ∈ (publishMany db ns keys pb now).1
      ∧ (publishPatch now pb e).status = .published
      ∧ (publishPatch now pb e).metadata.publishedAt = some now
      ∧ (publishPatch now pb e).metadata.createdBy = pb)
  ∧ (∀ e ∈ db, ¬ publishMatch ns keys e →
      e ∈ (publishMany db ns keys pb now).1)
  ∧ (∀ e' ∈ (publishMany db ns keys pb now).1,
      (∃ e ∈ db, ¬ publishMatch ns keys e ∧ e' = e) ∨
      (∃ e ∈ db, publishMatch ns keys e ∧ e' = publishPatch now pb e))
  ∧ (publishMany db ns keys pb now).2 =
      (db.filter (fun e => decide (publishMatch ns keys e))).length := by
  refine ⟨by simp [publishMany], ?_, ?_, ?_, ?_⟩
  · intro e he h
    refine ⟨?_, by simp [publishPatch], by simp [publishPatch],
      by simp [publishPatch]⟩
    exact List.mem_map.mpr ⟨e, he, by rw [if_pos h]⟩
  · intro e he h
    exact List.mem_map.mpr ⟨e, he, by rw [if_neg h]⟩
  · intro e' he'
    rcases List.mem_map.mp he' with ⟨e, he, rfl⟩
    by_cases h : publishMatch ns keys e
    · exact Or.inr ⟨e, he, h, by rw [if_pos h]⟩
    · exact Or.inl ⟨e, he, h, by rw [if_neg h]⟩
  · simp [publishMany, List.countP_eq_length_filter]

/-- An active draft entry under namespace `ui`, key `k1`. -/
def eC4w : TranslationEntry :=
  { «namespace» := "ui", key := "k1", locale := "en", value := "v",
    context := "",
    metadata := { createdBy := "sys", reviewedBy := none, reviewedAt := none,
                  publishedAt := none },
    «variables» := [], status := .draft, isActive := true,
    createdAt := 0, updatedAt := 0 }

/-- C4 witness: on a one-entry collection, the matching draft entry is
published and stamped. -/
theorem c4_publish_bulk_witness :
    publishPatch 5 "bob" eC4w ∈ (publishMany [eC4w] "ui" ["k1"] "bob" 5).1
  ∧ (publishPatch 5 "bob" eC4w).status = .published
  ∧ (publishMany [eC4w] "ui" ["k1"] "bob" 5).2 =
      (([eC4w]).filter (fun e => decide (publishMatch "ui" ["k1"] e))).length := by
  have h := c4_publish_bulk [eC4w] "ui" ["k1"] "bob" 5
  exact ⟨(h.2.1 eC4w (by simp) (by decide)).1,
    (h.2.1 eC4w (by simp) (by decide)).2.1, h.2.2.2.2⟩

/-- A published entry can never match the bulk-publish filter, whose status
condition accepts only draft and reviewed. -/
theorem published_not_publishMatch (ns : String) (keys : List String)
    (e : TranslationEntry) (h : e.status = .published) :
    ¬ publishMatch ns keys e := by
  intro hc
  rcases hc.2.2 with h1 | h1 <;> rw [h] at h1 <;> cases h1

/-- A fresh draft entry, never published. -/
def eC2 : TranslationEntry :=
  { «namespace» := "ui", key := "k1", locale := "en", value := "v",
    context := "",
    metadata := { createdBy := "sys", reviewedBy := none, reviewedAt := none,
                  publishedAt := none },
    «variables» := [], status := .draft, isActive := true,
    createdAt := 0, updatedAt := 0 }

/-- C2 counterexample: publishing `eC2` at time 5 stamps
`publishedAt = some 5`, but a second call of the `publish()` instance method
at time 9 overwrites the stored timestamp to `some 9` — it is not written
exactly once. -/
theorem c2_counterexample :
    (TranslationEntry.publish 5 eC2).metadata.publishedAt = some 5
  ∧ (TranslationEntry.publish 9
      (TranslationEntry.publish 5 eC2)).metadata.publishedAt = some 9 := by
  decide

/-- C2 (amended): the save hook writes `publishedAt` only on the first save
with status published and preserves it once set; neither update-route patch
touches `publishedAt`; the bulk publish never matches an already-published
entry; but the `publish()` instance method re-stamps `publishedAt` on every
call. -/
theorem c2_publishedAt_amended :
    (∀ (e : TranslationEntry) (now t : Nat),
      e.metadata.publishedAt = some t →
      (preSave now e).metadata.publishedAt = some t)
  ∧ (∀ (e : TranslationEntry) (now : Nat), e.status = .published →
      e.metadata.publishedAt = none →
      (preSave now e).metadata.publishedAt = some now)
  ∧ (∀ (value context : Option String) (vars : Option (List TVariable))
      (status : Option TStatus) (ub : String) (now : Nat)
      (e : TranslationEntry),
      (updateEntryPatch value context vars status ub now
        e).metadata.publishedAt = e.metadata.publishedAt)
  ∧ (∀ (value context : String) (vars : List TVariable) (cb : String)
      (now : Nat) (e : TranslationEntry),
      (upsertPatch value context vars cb now e).metadata.publishedAt =
        e.metadata.publishedAt)
  ∧ (∀ (db : List TranslationEntry) (ns : String) (keys : List String)
      (pb : String) (now : Nat) (e : TranslationEntry), e ∈ db →
      e.status = .published → e ∈ (publishMany db ns keys pb now).1)
  ∧ (∀ (e : TranslationEntry) (now now2 : Nat),
      (TranslationEntry.publish now2
        (TranslationEntry.publish now e)).metadata.publishedAt = some now2) := by
  refine ⟨?_, ?_, ?_, ?_, ?_, ?_⟩
  · intro e now t h
    simp [preSave, h]
  · intro e now h1 h2
    simp [preSave, h1, h2]
  · intro v c vars st ub now e
    simp [updateEntryPatch]
  · intro v c vars cb now e
    simp [upsertPatch]
  · intro db ns keys pb now e he h
    exact List.mem_map.mpr
      ⟨e, he, by rw [if_neg (published_not_publishMatch ns keys e h)]⟩
  · intro e now now2
    simp [TranslationEntry.publish, preSave]

/-- A published entry whose `publishedAt` was stamped at time 5. -/
def eC2p : TranslationEntry :=
  { «namespace» := "ui", key := "k1", locale := "en", value := "v",
    context := "",
    metadata := { createdBy := "sys", reviewedBy := none, reviewedAt := none,
                  publishedAt := some 5 },
    «variables» := [], status := .published, isActive := true,
    createdAt := 0, updatedAt := 0 }

/-- C2 witness: a later save leaves the stamped timestamp at `some 5`, and
the already-published entry survives a bulk publish untouched. -/
theorem c2_publishedAt_amended_witness :
    (preSave 9 eC2p).metadata.publishedAt = some 5
  ∧ eC2p ∈ (publishMany [eC2p] "ui" ["k1"] "bob" 9).1 := by
  exact ⟨c2_publishedAt_amended.1 eC2p 9 5 rfl,
    c2_publishedAt_amended.2.2.2.2.1 [eC2p] "ui" ["k1"] "bob" 9 eC2p
      (by simp) rfl⟩

/-- The operation updateFirst reports not-found exactly when no document matches. -/
theorem updateFirst_eq_none_iff (p : TranslationEntry → Prop) [DecidablePred p]
    (f : TranslationEntry → TranslationEntry) (l : List TranslationEntry) :
    updateFirst p f l = none ↔ ∀ e ∈ l, ¬ p e := by
  induction l with
  | nil => simp [updateFirst]
  | cons a as ih =>
    by_cases h : p a
    · simp [updateFirst, h]
    · simp [updateFirst, h, ih]

/-- When some document matches, `updateFirst` succeeds and returns the patch
of the first matching document. -/
theorem updateFirst_eq_some (p : TranslationEntry → Prop) [DecidablePred p]
    (f : TranslationEntry → TranslationEntry) (l : List TranslationEntry)
    (e0 : TranslationEntry)
    (hfind : l.find? (fun e => decide (p e)) = some e0) :
    ∃ l', updateFirst p f l = some (l', f e0) := by
  induction l with
  | nil => cases hfind
  | cons a as ih =>
    by_cases h : p a
    · rw [List.find?_cons_of_pos _ (by simpa using h)] at hfind
      have ha : a = e0 := by simpa using hfind
      subst ha
      exact ⟨f a :: as, by simp [updateFirst, if_pos h]⟩
    · rw [List.find?_cons_of_neg _ (by simpa using h)] at hfind
      rcases ih hfind with ⟨l', hl'⟩
      exact ⟨a :: l', by simp [updateFirst, if_neg h, hl']⟩

/-- A published active entry at (ui, k1, en). -/
def eC3 : TranslationEntry :=
  { «namespace» := "ui", key := "k1", locale := "en", value := "v",
    context := "",
    metadata := { createdBy := "sys", reviewedBy := none, reviewedAt := none,
                  publishedAt := some 3 },
    «variables» := [], status := .published, isActive := true,
    createdAt := 0, updatedAt := 0 }

/-- C3 counterexample: updating only the value of a published entry — a
patch that does not include `status` — resets its status to draft instead of
leaving it unchanged, because the route always writes a status value. -/
theorem c3_counterexample :
    eC3.status = .published
  ∧ (updateEntry [eC3] "ui" "k1" "en" (some "v2") none none none
      "sys" 7).map (fun r => r.2.status) = some .draft := by decide

/-- C3 (amended): the update operation patches the first matching entry; a
patch omitting `status` resets status to draft (only an explicit status value
is kept), omitted value/context/variables fields are left unchanged, and the
operation returns not-found, modifying nothing, when no record matches. -/
theorem c3_updateEntry_status (db : List TranslationEntry)
    (ns key locale : String) (value context : Option String)
    (vars : Option (List TVariable)) (status : Option TStatus)
    (ub : String) (now : Nat) :
    (updateEntry db ns key locale value context vars status ub now = none ↔
      ∀ e ∈ db, ¬ idMatch ns key locale e)
  ∧ (∀ e0, db.find? (fun e => decide (idMatch ns key locale e)) = some e0 →
      ∃ db', updateEntry db ns key locale value context vars status ub now =
        some (db', updateEntryPatch value context vars status ub now e0))
  ∧ (∀ e, (updateEntryPatch value context vars status ub now e).status =
        status.getD .draft
      ∧ (updateEntryPatch value context vars status ub now e).value =
        value.getD e.value
      ∧ (updateEntryPatch value context vars status ub now e).context =
        context.getD e.context
      ∧ (updateEntryPatch value context vars status ub now e).«variables» =
        vars.getD e.«variables»
      ∧ (updateEntryPatch value context vars status ub now e).isActive =
        e.isActive) := by
  refine ⟨?_, ?_, ?_⟩
  · exact updateFirst_eq_none_iff (idMatch ns key locale)
      (updateEntryPatch value context vars status ub now) db
  · intro e0 hfind
    exact updateFirst_eq_some (idMatch ns key locale)
      (updateEntryPatch value context vars status ub now) db e0 hfind
  · intro e
    refine ⟨?_, ?_, ?_, ?_, ?_⟩ <;> simp [updateEntryPatch]

/-- C3 witness: on a one-entry collection the update patches the matching
published entry resetting it to draft, and on the empty collection it
reports not-found. -/
theorem c3_updateEntry_status_witness :
    (∃ db', updateEntry [eC3] "ui" "k1" "en" (some "v2") none none none
        "sys" 7 =
      some (db', updateEntryPatch (some "v2") none none none "sys" 7 eC3))
  ∧ (updateEntryPatch (some "v2") none none none "sys" 7 eC3).status = .draft
  ∧ updateEntry [] "ui" "k1" "en" (some "v2") none none none "sys" 7 =
      none := by
  have h := c3_updateEntry_status [eC3] "ui" "k1" "en" (some "v2") none none
    none "sys" 7
  have h0 := c3_updateEntry_status [] "ui" "k1" "en" (some "v2") none none
    none "sys" 7
  exact ⟨h.2.1 eC3 (by decide), (h.2.2 eC3).1, h0.1.mpr (by simp)⟩

/-- When no document matches, the upsert inserts the fresh document at the
end and returns it. -/
theorem upsertGo_none (p : TranslationEntry → Prop) [DecidablePred p]
    (patch : TranslationEntry → TranslationEntry) (fresh : TranslationEntry)
    (l : List TranslationEntry) (h : ∀ e ∈ l, ¬ p e) :
    upsertGo p patch fresh l = (l ++ [fresh], fresh) := by
  induction l with
  | nil => rfl
  | cons a as ih =>
    have ha : ¬ p a := h a (List.mem_cons_self a as)
    simp only [upsertGo, if_neg ha,
      ih (fun e he => h e (List.mem_cons_of_mem a he))]
    rfl

/-- When a document matches, the upsert patches the first matching document
in place and returns the patched document. -/
theorem upsertGo_some (p : TranslationEntry → Prop) [DecidablePred p]
    (patch : TranslationEntry → TranslationEntry) (fresh : TranslationEntry)
    (l : List TranslationEntry) (e0 : TranslationEntry)
    (hfind : l.find? (fun e => decide (p e)) = some e0) :
    ∃ l1 l2, l = l1 ++ e0 :: l2 ∧ (∀ x ∈ l1, ¬ p x) ∧
      upsertGo p patch fresh l = (l1 ++ patch e0 :: l2, patch e0) := by
  induction l with
  | nil => cases hfind
  | cons a as ih =>
    by_cases h : p a
    · rw [List.find?_cons_of_pos _ (by simpa using h)] at hfind
      have ha : a = e0 := by simpa using hfind
      subst ha
      exact ⟨[], as, rfl, by simp, by simp [upsertGo, if_pos h]⟩
    · rw [List.find?_cons_of_neg _ (by simpa using h)] at hfind
      rcases ih hfind with ⟨l1, l2, heq, hl1, hgo⟩
      refine ⟨a :: l1, l2, by rw [heq]; rfl, ?_, ?_⟩
      · intro x hx
        rcases List.mem_cons.mp hx with rfl | hx'
        · exact h
        · exact hl1 x hx'
      · simp [upsertGo, if_neg h, hgo]

/-- An archived, deactivated entry at (ui, k1, en). -/
def eC6 : TranslationEntry :=
  { «namespace» := "ui", key := "k1", locale := "en", value := "old",
    context := "",
    metadata := { createdBy := "sys", reviewedBy := none, reviewedAt := none,
                  publishedAt := some 3 },
    «variables» := [], status := .archived, isActive := false,
    createdAt := 0, updatedAt := 0 }

/-- C6 counterexample: upserting over a previously archived record does set
the new value with status draft, but `getEntry` right after returns nothing
for that locale — the record stayed `isActive = false` and the read filters
on `isActive: true`, so the upsert-then-read round trip fails. -/
theorem c6_counterexample :
    (upsertEntry [eC6] "ui" "k1" "en" "v" "" [] "sys" 7).2.value = "v"
  ∧ (upsertEntry [eC6] "ui" "k1" "en" "v" "" [] "sys" 7).2.status = .draft
  ∧ getEntry (upsertEntry [eC6] "ui" "k1" "en" "v" "" [] "sys" 7).1
      "ui" "k1" ["en"] = [] := by decide

/-- C6 (amended): `upsert` always installs the given value with status draft
whatever the previous status; and provided every existing record at the
(namespace, key, locale) triple is active — in particular when none exists —
a `getEntry` immediately after returns exactly the upserted record, with that
value and status draft, for that locale. -/
theorem c6_upsert_getEntry (db : List TranslationEntry)
    (ns key locale value context : String) (vars : List TVariable)
    (cb : String) (now : Nat)
    (hact : ∀ e ∈ db, idMatch ns key locale e → e.isActive = true)
    (huniq : db.countP (fun e => decide (idMatch ns key locale e)) ≤ 1) :
    (upsertEntry db ns key locale value context vars cb now).2.value = value
  ∧ (upsertEntry db ns key locale value context vars cb now).2.status = .draft
  ∧ (upsertEntry db ns key locale value context vars cb now).2 ∈
      getEntry (upsertEntry db ns key locale value context vars cb now).1
        ns key [locale]
  ∧ ∀ e ∈ getEntry (upsertEntry db ns key locale value context vars cb
        now).1 ns key [locale],
      e = (upsertEntry db ns key locale value context vars cb now).2 := by
  unfold upsertEntry
  cases hfind : db.find? (fun e => decide (idMatch ns key locale e)) with
  | none =>
    have hno : ∀ e ∈ db, ¬ idMatch ns key locale e := by
      intro e he
      have := List.find?_eq_none.mp hfind e he
      simpa using this
    rw [upsertGo_none _ _ _ db hno]
    refine ⟨rfl, rfl, ?_, ?_⟩
    · apply List.mem_filter.mpr
      refine ⟨List.mem_append.mpr (Or.inr (by simp)), ?_⟩
      simp [newEntry]
    · intro e he
      have hmem := (List.mem_filter.mp he).1
      have hcond := (List.mem_filter.mp he).2
      rw [decide_eq_true_eq] at hcond
      have hid : idMatch ns key locale e :=
        ⟨hcond.1, hcond.2.1, by simpa using hcond.2.2.1⟩
      rcases List.mem_append.mp hmem with h | h
      · exact absurd hid (hno e h)
      · simpa using h
  | some e0 =>
    rcases upsertGo_some (idMatch ns key locale)
      (upsertPatch value context vars cb now)
      (newEntry ns key locale value context vars cb now) db e0 hfind with
      ⟨l1, l2, heq, hl1, hgo⟩
    have hid0 : idMatch ns key locale e0 := by
      have := List.find?_some hfind
      simpa using this
    have he0mem : e0 ∈ db := List.mem_of_find?_eq_some hfind
    have hact0 : e0.isActive = true := hact e0 he0mem hid0
    have hl2 : ∀ x ∈ l2, ¬ idMatch ns key locale x := by
      intro x hx hidx
      have hc : db.countP (fun e => decide (idMatch ns key locale e)) =
          l1.countP (fun e => decide (idMatch ns key locale e)) +
          ((e0 :: l2).countP (fun e => decide (idMatch ns key locale e))) := by
        rw [heq, List.countP_append]
      rw [List.countP_cons_of_pos _ _ (by simpa using hid0)] at hc
      have hx1 : 1 ≤ l2.countP (fun e => decide (idMatch ns key locale e)) := by
        have : x ∈ l2.filter (fun e => decide (idMatch ns key locale e)) :=
          List.mem_filter.mpr ⟨hx, by simpa using hidx⟩
        have hlen : 0 < (l2.filter
            (fun e => decide (idMatch ns key locale e))).length :=
          List.length_pos.mpr (List.ne_nil_of_mem this)
        simpa [List.countP_eq_length_filter] using hlen
      omega
    rw [hgo]
    have hpid : idMatch ns key locale
        (upsertPatch value context vars cb now e0) := by
      exact ⟨by simp [upsertPatch, hid0.1], by simp [upsertPatch, hid0.2.1],
        by simp [upsertPatch, hid0.2.2]⟩
    refine ⟨rfl, rfl, ?_, ?_⟩
    · apply List.mem_filter.mpr
      refine ⟨List.mem_append.mpr (Or.inr (List.mem_cons_self _ _)), ?_⟩
      rw [decide_eq_true_eq]
      exact ⟨hpid.1, hpid.2.1, by simp [hpid.2.2],
        by simp [upsertPatch, hact0]⟩
    · intro e he
      have hmem := (List.mem_filter.mp he).1
      have hcond := (List.mem_filter.mp he).2
      rw [decide_eq_true_eq] at hcond
      have hid : idMatch ns key locale e :=
        ⟨hcond.1, hcond.2.1, by simpa using hcond.2.2.1⟩
      rcases List.mem_append.mp hmem with h | h
      · exact absurd hid (hl1 e h)
      · rcases List.mem_cons.mp h with h' | h'
        · exact h'
        · exact absurd hid (hl2 e h')

/-- C6 witness: upserting into the empty collection then reading back yields
exactly the new draft record. -/
theorem c6_upsert_getEntry_witness :
    (upsertEntry [] "ui" "k1" "en" "v" "" [] "sys" 7).2.value = "v"
  ∧ (upsertEntry [] "ui" "k1" "en" "v" "" [] "sys" 7).2.status = .draft
  ∧ (upsertEntry [] "ui" "k1" "en" "v" "" [] "sys" 7).2 ∈
      getEntry (upsertEntry [] "ui" "k1" "en" "v" "" [] "sys" 7).1
        "ui" "k1" ["en"] := by
  have h := c6_upsert_getEntry [] "ui" "k1" "en" "v" "" [] "sys" 7
    (by simp) (by simp)
  exact ⟨h.1, h.2.1, h.2.2.1⟩

/-- C10: upserting over a record previously archived (isActive = false)
resets its status to draft and replaces its value, but the upsert patch never
writes `isActive`, so the revived record stays inactive; the bulk-publish
patch does not write `isActive` either; and no inactive record ever appears
in a bundle result — so the revived record stays excluded from every
`getBundles` result even after it is published. -/
theorem c10_upsert_keeps_inactive (db : List TranslationEntry)
    (ns key locale value context : String) (vars : List TVariable)
    (cb : String) (now : Nat) (e0 : TranslationEntry)
    (hfind : db.find? (fun e => decide (idMatch ns key locale e)) = some e0)
    (harch : e0.isActive = false) :
    (∀ e, (upsertPatch value context vars cb now e).isActive = e.isActive)
  ∧ (upsertEntry db ns key locale value context vars cb now).2.value = value
  ∧ (upsertEntry db ns key locale value context vars cb now).2.status = .draft
  ∧ (upsertEntry db ns key locale value context vars cb now).2.isActive =
      false
  ∧ (upsertEntry db ns key locale value context vars cb now).2 ∈
      (upsertEntry db ns key locale value context vars cb now).1
  ∧ (∀ (pb : String) (now2 : Nat),
      (publishPatch now2 pb
        (upsertEntry db ns key locale value context vars cb
          now).2).isActive = false)
  ∧ (∀ (x : TranslationEntry) (db2 : List TranslationEntry)
      (namespaces locales : List String) (status : TStatus),
      x.isActive = false → x ∉ getBundles db2 namespaces locales status) := by
  rcases upsertGo_some (idMatch ns key locale)
    (upsertPatch value context vars cb now)
    (newEntry ns key locale value context vars cb now) db e0 hfind with
    ⟨l1, l2, heq, hl1, hgo⟩
  have hr : upsertEntry db ns key locale value context vars cb now =
      (l1 ++ upsertPatch value context vars cb now e0 :: l2,
       upsertPatch value context vars cb now e0) := by
    unfold upsertEntry
    exact hgo
  refine ⟨fun e => by simp [upsertPatch], ?_, ?_, ?_, ?_, ?_, ?_⟩
  · rw [hr]
    simp [upsertPatch]
  · rw [hr]
    simp [upsertPatch]
  · rw [hr]
    simp [upsertPatch, harch]
  · rw [hr]
    exact List.mem_append.mpr (Or.inr (List.mem_cons_self _ _))
  · intro pb now2
    rw [hr]
    simp [publishPatch, upsertPatch, harch]
  · intro x db2 nss ls st hx
    exact inactive_not_mem_getBundles x hx db2 nss ls st

/-- An archived, deactivated entry at (ui, greeting, en). -/
def eC10 : TranslationEntry :=
  { «namespace» := "ui", key := "greeting", locale := "en", value := "old",
    context := "",
    metadata := { createdBy := "sys", reviewedBy := none, reviewedAt := none,
                  publishedAt := some 3 },
    «variables» := [], status := .archived, isActive := false,
    createdAt := 0, updatedAt := 0 }

/-- C10 witness: upserting over the archived `eC10` yields a draft record
with the new value that is still inactive, and its published image is still
excluded from bundle results. -/
theorem c10_upsert_keeps_inactive_witness :
    (upsertEntry [eC10] "ui" "greeting" "en" "v" "" [] "sys" 7).2.value = "v"
  ∧ (upsertEntry [eC10] "ui" "greeting" "en" "v" "" [] "sys" 7).2.status =
      .draft
  ∧ (upsertEntry [eC10] "ui" "greeting" "en" "v" "" [] "sys" 7).2.isActive =
      false
  ∧ (publishPatch 9 "bob"
      (upsertEntry [eC10] "ui" "greeting" "en" "v" "" [] "sys"
        7).2).isActive = false := by
  have h := c10_upsert_keeps_inactive [eC10] "ui" "greeting" "en" "v" "" []
    "sys" 7 eC10 (by decide) rfl
  exact ⟨h.2.1, h.2.2.1, h.2.2.2.1, h.2.2.2.2.2.1 "bob" 9⟩

/-- C9: `getMissingKeys(namespace, locales)` reports exactly the keys having
at least one active published entry under the namespace whose required-locale
difference is non-empty; the locales counted as present for a key are
exactly those of its active published entries; and a reported missing set
holds exactly the required locales with no active published entry. -/
theorem c9_getMissingKeys (db : List TranslationEntry) (ns : String)
    (locales : List String) (k : String) (m : List String) :
    ((k, m) ∈ getMissingKeys db ns locales ↔
      (∃ e ∈ db, missingMatch ns e ∧ e.key = k)
      ∧ m = locales.dedup.filter (fun l => decide (l ∉ localesOfKey db ns k))
      ∧ m ≠ [])
  ∧ (∀ l, l ∈ localesOfKey db ns k ↔
      ∃ e ∈ db, missingMatch ns e ∧ e.key = k ∧ e.locale = l)
  ∧ ((k, m) ∈ getMissingKeys db ns locales →
      ∀ l, l ∈ m ↔ l ∈ locales ∧
        ¬ ∃ e ∈ db, missingMatch ns e ∧ e.key = k ∧ e.locale = l) := by
  have hK : k ∈ missingKeysOf db ns ↔
      ∃ e ∈ db, missingMatch ns e ∧ e.key = k := by
    simp only [missingKeysOf, List.mem_dedup, List.mem_map, List.mem_filter,
      decide_eq_true_eq]
    constructor
    · rintro ⟨e, ⟨he, hmm⟩, hk⟩
      exact ⟨e, he, hmm, hk⟩
    · rintro ⟨e, he, hmm, hk⟩
      exact ⟨e, ⟨he, hmm⟩, hk⟩
  have hB : ∀ l, l ∈ localesOfKey db ns k ↔
      ∃ e ∈ db, missingMatch ns e ∧ e.key = k ∧ e.locale = l := by
    intro l
    simp only [localesOfKey, List.mem_dedup, List.mem_map, List.mem_filter,
      decide_eq_true_eq]
    constructor
    · rintro ⟨e, ⟨he, hmm, hk⟩, hl⟩
      exact ⟨e, he, hmm, hk, hl⟩
    · rintro ⟨e, he, hmm, hk, hl⟩
      exact ⟨e, ⟨he, hmm, hk⟩, hl⟩
  have hA : (k, m) ∈ getMissingKeys db ns locales ↔
      (∃ e ∈ db, missingMatch ns e ∧ e.key = k)
      ∧ m = locales.dedup.filter (fun l => decide (l ∉ localesOfKey db ns k))
      ∧ m ≠ [] := by
    constructor
    · intro h
      rcases List.mem_filterMap.mp h with ⟨a, ha, hfa⟩
      dsimp only at hfa
      by_cases hemp : (locales.dedup.filter
          (fun l => decide (l ∉ localesOfKey db ns a))) = []
      · rw [if_pos hemp] at hfa
        cases hfa
      · rw [if_neg hemp] at hfa
        have hpair := (Option.some.injEq _ _).mp hfa
        have hak : a = k := congrArg Prod.fst hpair
        have hmm : (locales.dedup.filter
            (fun l => decide (l ∉ localesOfKey db ns a))) = m :=
          congrArg Prod.snd hpair
        subst hak
        exact ⟨hK.mp ha, hmm.symm, by rw [← hmm]; exact hemp⟩
    · rintro ⟨hex, hm, hne⟩
      apply List.mem_filterMap.mpr
      refine ⟨k, hK.mpr hex, ?_⟩
      dsimp only
      rw [if_neg (by rw [← hm]; exact hne), ← hm]
  refine ⟨hA, hB, ?_⟩
  intro h l
  rcases hA.mp h with ⟨hex, hm, hne⟩
  rw [hm, List.mem_filter, List.mem_dedup, decide_eq_true_eq]
  constructor
  · rintro ⟨h1, h2⟩
    exact ⟨h1, fun hc => h2 ((hB l).mpr hc)⟩
  · rintro ⟨h1, h2⟩
    exact ⟨h1, fun hc => h2 ((hB l).mp hc)⟩

/-- An active published `ui`/`greeting` entry for locale `en`. -/
def eC9en : TranslationEntry :=
  { «namespace» := "ui", key := "greeting", locale := "en", value := "Hello",
    context := "",
    metadata := { createdBy := "sys", reviewedBy := none, reviewedAt := none,
                  publishedAt := some 3 },
    «variables» := [], status := .published, isActive := true,
    createdAt := 0, updatedAt := 0 }

/-- An active published `ui`/`greeting` entry for locale `ar`. -/
def eC9ar : TranslationEntry :=
  { «namespace» := "ui", key := "greeting", locale := "ar", value := "Ahlan",
    context := "",
    metadata := { createdBy := "sys", reviewedBy := none, reviewedAt := none,
                  publishedAt := some 3 },
    «variables» := [], status := .published, isActive := true,
    createdAt := 0, updatedAt := 0 }

/-- C9 witness: with published entries only for `en` and `ar` on key
`greeting`, requiring `en`, `ar`, `fr` reports `greeting` missing `fr`. -/
theorem c9_getMissingKeys_witness :
    ("greeting", ["fr"]) ∈
      getMissingKeys [eC9en, eC9ar] "ui" ["en", "ar", "fr"] := by
  exact (c9_getMissingKeys [eC9en, eC9ar] "ui" ["en", "ar", "fr"]
    "greeting" ["fr"]).1.mpr ⟨by decide, by decide, by decide⟩
